import Mathlib

/-!
Verification of the note2agent incremental indexing pipeline.

This file gives a shallow embedding of the core of the repository:
the token chunker and document processing (`core/document_processor.py`),
the vector-store operations used by the refresh logic
(`core/vector_store.py`: `delete_by_hash`, `add_documents`), and the
knowledge-base refresh orchestrator (`core/knowledge_base.py`).

Modelling conventions:
* Python `int` arithmetic on the chunk window start is embedded as `Int`
  (so a negative step is represented faithfully); token sequences are
  `List Nat`.
* The tokenizer (`tiktoken`) is external; it is embedded as an explicit
  pair of functions `enc : String → List Nat`, `dec : List Nat → String`.
* The SHA-256 digest is external; it is embedded as an abstract function
  from file content to digest string.
* The `while start < len(tokens)` loop of `_chunk_text` has no a-priori
  termination argument (it does not terminate when
  `chunk_overlap ≥ chunk_size`), so it is embedded with an explicit fuel
  parameter; for `chunk_overlap < chunk_size` the fuel used by
  `chunkTextTokens` is proved sufficient (`chunkLoop_length_count`), and
  for `chunk_overlap ≥ chunk_size` we prove every unit of fuel produces
  one more iteration, i.e. the loop never exits on its own.
* `datetime.now()` timestamps and console printing are omitted; they
  carry no decision-relevant information.
-/

namespace Note2Agent

/-- Ceiling division on naturals: `⌈a / b⌉` as `(a + b - 1) / b`. -/
def natCeilDiv (a b : Nat) : Nat := (a + b - 1) / b

/-- Configuration state stored by `DocumentProcessor.__init__`
(`document_processor.py` lines 30-46).  The constructor performs no
validation of the chunk parameters; it only stores them. -/
structure DocumentProcessor where
  chunk_size : Nat
  chunk_overlap : Nat
deriving Repr, DecidableEq

/-- `DocumentProcessor.__init__`: stores the configuration unchanged,
with no guard on `chunk_overlap` versus `chunk_size`. -/
def DocumentProcessor.init (chunk_size chunk_overlap : Nat) : DocumentProcessor :=
  { chunk_size := chunk_size, chunk_overlap := chunk_overlap }

/-- Python slice `tokens[start : start + size]` for a nonnegative start. -/
def sliceTokens (tokens : List Nat) (start : Int) (size : Nat) : List Nat :=
  (tokens.drop start.toNat).take size

/-- The `while start < len(tokens)` loop of `_chunk_text`
(`document_processor.py` lines 185-198), one fuel unit per iteration.
`start` advances by the Python integer `chunk_size - chunk_overlap`. -/
def chunkLoop (size overlap : Nat) (tokens : List Nat) : Nat → Int → List (List Nat)
  | 0, _ => []
  | fuel + 1, start =>
    if start < (tokens.length : Int) then
      sliceTokens tokens start size ::
        chunkLoop size overlap tokens fuel (start + ((size : Int) - (overlap : Int)))
    else []

/-- `_chunk_text` at the token level: run the window loop from `start = 0`.
The fuel `tokens.length + 1` is sufficient whenever
`chunk_overlap < chunk_size` (the only terminating regime). -/
def chunkTextTokens (dp : DocumentProcessor) (tokens : List Nat) : List (List Nat) :=
  chunkLoop dp.chunk_size dp.chunk_overlap tokens (tokens.length + 1) 0

/-- `_chunk_text` (`document_processor.py` lines 172-200): encode the text,
slide the token window, decode each window back to text. -/
def chunkText (dp : DocumentProcessor) (enc : String → List Nat)
    (dec : List Nat → String) (text : String) : List String :=
  (chunkTextTokens dp (enc text)).map dec

/-- Python `str.lower()`: lower-case character by character. -/
def pyLower (s : String) : String := String.mk (s.data.map Char.toLower)

/-- Python `str.strip()` on a character list: drop whitespace from both
ends. -/
def pyStrip (l : List Char) : List Char :=
  ((l.dropWhile Char.isWhitespace).reverse.dropWhile Char.isWhitespace).reverse

/-- A chunk dictionary as built by `_process_pdf` / `_process_markdown`:
the text plus the decision-relevant metadata fields.  (`timestamp` is
wall-clock time and is omitted; `page`/`total_pages` are `none` for
non-PDF files.) -/
structure Chunk where
  text : String
  source : String
  file_type : String
  page : Option Nat := none
  total_pages : Option Nat := none
  chunk_index : Nat
  file_hash : String
deriving Repr, DecidableEq

/-- `_process_markdown` (`document_processor.py` lines 130-170), given the
file's decoded content and its (already computed) whole-file hash:
return `[]` when the stripped text is empty, else chunk and decorate.
The surrounding `try` only wraps the file read, which is a parameter of
the caller's model (`processMarkdownFile`). -/
def processMarkdown (dp : DocumentProcessor) (enc : String → List Nat)
    (dec : List Nat → String) (file_path file_type file_hash : String)
    (text : String) : List Chunk :=
  if pyStrip text.data = [] then []
  else
    (chunkText dp enc dec text).enum.map fun it =>
      { text := it.2, source := file_path, file_type := file_type,
        chunk_index := it.1, file_hash := file_hash }

/-- The error taxonomy of `process_file`:
`FileNotFoundError`, `ValueError` (unsupported type), and the
`RuntimeError` wrapper raised by `_process_pdf` / `_process_markdown`. -/
inductive ProcError where
  | fileNotFound : String → ProcError
  | unsupportedType : String → ProcError
  | runtimeError : String → ProcError
deriving Repr, DecidableEq

/-- `_process_pdf` (`document_processor.py` lines 76-128) given the page
texts extracted by PyMuPDF: skip empty / whitespace-only pages, chunk the
rest, number pages 1-indexed.  `file_hash` is the whole-file digest. -/
def pdfChunks (dp : DocumentProcessor) (enc : String → List Nat)
    (dec : List Nat → String) (file_path file_hash : String)
    (pages : List String) : List Chunk :=
  pages.enum.foldl
    (fun acc pg =>
      if pyStrip pg.2.data = [] then acc
      else
        acc ++ (chunkText dp enc dec pg.2).enum.map fun it =>
          { text := it.2, source := file_path, file_type := "pdf",
            page := some (pg.1 + 1), total_pages := some pages.length,
            chunk_index := it.1, file_hash := file_hash })
    []

/-- `_process_pdf` including its `try/except` wrapper: `pdfPages` is the
external PyMuPDF extraction (its `Except.error` case is any exception
raised while opening or reading the PDF). -/
def processPdfFile (pdfPages : String → Except String (List String))
    (dp : DocumentProcessor) (enc : String → List Nat) (dec : List Nat → String)
    (hashFile : String → String) (file_path : String) :
    Except ProcError (List Chunk) :=
  match pdfPages file_path with
  | .error e => .error (.runtimeError ("Error processing PDF " ++ file_path ++ ": " ++ e))
  | .ok pages => .ok (pdfChunks dp enc dec file_path (hashFile file_path) pages)

/-- `_process_markdown` including its `try/except` wrapper: `readFile` is
the external UTF-8 file read (its `Except.error` case is any exception,
e.g. a decoding error). -/
def processMarkdownFile (readFile : String → Except String String)
    (dp : DocumentProcessor) (enc : String → List Nat) (dec : List Nat → String)
    (hashFile : String → String) (file_path file_type : String) :
    Except ProcError (List Chunk) :=
  match readFile file_path with
  | .error e => .error (.runtimeError ("Error processing file " ++ file_path ++ ": " ++ e))
  | .ok text => .ok (processMarkdown dp enc dec file_path file_type (hashFile file_path) text)

/-- `process_file` (`document_processor.py` lines 48-74): existence check,
then dispatch on the lower-cased extension.  `fsExists` models
`Path.exists`, `pathSuffix` models `Path.suffix`. -/
def processFile (fsExists : String → Bool) (pathSuffix : String → String)
    (pdfPages : String → Except String (List String))
    (readFile : String → Except String String)
    (dp : DocumentProcessor) (enc : String → List Nat) (dec : List Nat → String)
    (hashFile : String → String) (file_path : String) :
    Except ProcError (List Chunk) :=
  if fsExists file_path = false then
    .error (.fileNotFound ("File not found: " ++ file_path))
  else
    let extension := pyLower (pathSuffix file_path)
    if extension = ".pdf" then
      processPdfFile pdfPages dp enc dec hashFile file_path
    else if extension ∈ ([".md", ".markdown", ".txt"] : List String) then
      processMarkdownFile readFile dp enc dec hashFile file_path
        ((pathSuffix file_path).drop 1)
    else
      .error (.unsupportedType ("Unsupported file type: " ++ extension))

/-! ## Vector store (`core/vector_store.py`)

The ChromaDB collection is embedded as the list of chunk records it
holds.  `add_documents` embeds and upserts, which at this level appends
the chunks; `delete_by_hash` deletes by the `file_hash` metadata
filter. -/

/-- `VectorStore.delete_by_hash` (`vector_store.py` lines 154-164):
`collection.delete(where={"file_hash": h})`. -/
def deleteByHash (h : String) (store : List Chunk) : List Chunk :=
  store.filter fun c => c.file_hash ≠ h

/-- `VectorStore.add_documents` (`vector_store.py` lines 66-100): embeds
the chunk texts and adds the records; for an empty list it returns
immediately (same result). -/
def addDocuments (chunks : List Chunk) (store : List Chunk) : List Chunk :=
  store ++ chunks

/-! ## Knowledge base (`core/knowledge_base.py`) -/

/-- One value of `index_metadata["files"]`: the recorded hash and chunk
count (`indexed_at` omitted as wall-clock time). -/
structure LedgerEntry where
  hash : String
  chunks : Nat
deriving Repr, DecidableEq

/-- The ledger `index_metadata["files"]` as an association list from
absolute file path to entry, plus the vector store, plus the persisted
on-disk copy of the ledger (`index_metadata.json`). -/
structure KBState where
  ledger : List (String × LedgerEntry)
  store : List Chunk
  disk : List (String × LedgerEntry)
deriving Repr, DecidableEq

/-- Python dict lookup `files[p]` / `p in files`. -/
def ledgerFind : List (String × LedgerEntry) → String → Option LedgerEntry
  | [], _ => none
  | e :: rest, p => if e.1 = p then some e.2 else ledgerFind rest p

/-- Python `del files[p]`. -/
def ledgerErase (L : List (String × LedgerEntry)) (p : String) :
    List (String × LedgerEntry) :=
  L.filter fun e => e.1 ≠ p

/-- Python dict assignment `files[p] = ent`. -/
def ledgerInsert (L : List (String × LedgerEntry)) (p : String)
    (ent : LedgerEntry) : List (String × LedgerEntry) :=
  L.filter (fun e => e.1 ≠ p) ++ [(p, ent)]

/-- `KnowledgeBase._should_process_file` (`knowledge_base.py` lines
212-244): `force` ⇒ process; full mode ⇒ process; new to the ledger ⇒
process; otherwise process iff the current content hash differs from the
recorded one.  `hashOf` is the SHA-256 digest of the file's bytes,
applied to the file content `c`. -/
def shouldProcessFile (hashOf : String → String)
    (L : List (String × LedgerEntry)) (incremental force : Bool)
    (p c : String) : Bool :=
  if force then true
  else if !incremental then true
  else
    match ledgerFind L p with
    | none => true
    | some ent => hashOf c ≠ ent.hash

/-- The statistics dictionary returned by `refresh`. -/
structure RefreshStats where
  total_files : Nat
  processed_files : Nat
  skipped_files : Nat
  deleted_files : Nat
  total_chunks : Nat
  errors : List String
deriving Repr, DecidableEq

/-- The body of the loop in `KnowledgeBase._handle_deleted_files`
(`knowledge_base.py` lines 246-271): a ledger path not among the current
paths has its chunks deleted from the vector store (guarded by
`if file_hash:`), its ledger entry removed, and is appended to the
deleted list. -/
def handleDeletedStep (current : List String)
    (acc : KBState × List String) (e : String × LedgerEntry) :
    KBState × List String :=
  if e.1 ∈ current then acc
  else
    ({ acc.1 with
        ledger := ledgerErase acc.1.ledger e.1,
        store := if e.2.hash = "" then acc.1.store else deleteByHash e.2.hash acc.1.store },
      acc.2 ++ [e.1])

/-- `KnowledgeBase._handle_deleted_files`: iterate over a snapshot of the
ledger entries, reconciling deletions; returns the new state and the
list of deleted paths. -/
def handleDeletedFiles (current : List String) (st : KBState) :
    KBState × List String :=
  st.ledger.foldl (handleDeletedStep current) (st, [])

/-- The per-file body of the loop in `KnowledgeBase.refresh`
(`knowledge_base.py` lines 104-146).  A file is a pair
`(absolute path, content)`.  `proc` is `document_processor.process_file`
(its `Except.error` case is any exception raised for that file); chunks
carrying no content (`ok []`) leave state and counters untouched;
otherwise the old version is deleted by the hash taken from the *first
new chunk's* metadata (only in incremental mode), the new chunks are
added, and the ledger entry is updated. -/
def refreshStep (hashOf : String → String)
    (proc : String → String → Except String (List Chunk))
    (incremental force : Bool) (acc : KBState × RefreshStats)
    (f : String × String) : KBState × RefreshStats :=
  let st := acc.1
  let stats := acc.2
  if shouldProcessFile hashOf st.ledger incremental force f.1 f.2 = false then
    (st, { stats with skipped_files := stats.skipped_files + 1 })
  else
    match proc f.1 f.2 with
    | .error e =>
      (st, { stats with errors := stats.errors ++ ["Error processing " ++ f.1 ++ ": " ++ e] })
    | .ok [] => (st, stats)
    | .ok (c :: rest) =>
      let chunks := c :: rest
      let file_hash := c.file_hash
      let store1 := if incremental then deleteByHash file_hash st.store else st.store
      ({ st with
          store := addDocuments chunks store1,
          ledger := ledgerInsert st.ledger f.1 { hash := file_hash, chunks := chunks.length } },
        { stats with
            processed_files := stats.processed_files + 1,
            total_chunks := stats.total_chunks + chunks.length })

/-- The phase of `refresh` before the per-file loop: deletion
reconciliation (only when `incremental and not force`) and the initial
statistics.  The eligible files `fs` are given as
`(absolute path, content)` pairs (the result of the `rglob` filter). -/
def refreshInit (incremental force : Bool) (fs : List (String × String))
    (st : KBState) : KBState × RefreshStats :=
  let current := fs.map Prod.fst
  let del := if incremental && !force then handleDeletedFiles current st else (st, [])
  (del.1,
    { total_files := fs.length, processed_files := 0, skipped_files := 0,
      deleted_files := del.2.length, total_chunks := 0, errors := [] })

/-- `KnowledgeBase.refresh` (`knowledge_base.py` lines 50-164) given an
existing directory: reconciliation, the per-file loop, and the final
`_save_index_metadata()` (modelled as copying the in-memory ledger to
`disk`). -/
def refresh (hashOf : String → String)
    (proc : String → String → Except String (List Chunk))
    (incremental force : Bool) (fs : List (String × String)) (st : KBState) :
    KBState × RefreshStats :=
  let a := refreshInit incremental force fs st
  let r := fs.foldl (refreshStep hashOf proc incremental force) a
  ({ r.1 with disk := r.1.ledger }, r.2)

/-- `KnowledgeBase.refresh` including the directory existence
precondition (`knowledge_base.py` lines 72-74): `fs?` is `none` when
`Path(documents_path).exists()` is false, in which case
`FileNotFoundError` is raised before any state is touched. -/
def refreshTop (hashOf : String → String)
    (proc : String → String → Except String (List Chunk))
    (incremental force : Bool) (documents_path : String)
    (fs? : Option (List (String × String))) (st : KBState) :
    KBState × Except String RefreshStats :=
  match fs? with
  | none => (st, .error ("Documents path not found: " ++ documents_path))
  | some fs =>
    let r := refresh hashOf proc incremental force fs st
    (r.1, .ok r.2)

/-- A concrete character-level tokenizer used to instantiate theorems:
each character is one token (its code point). -/
def charEnc : String → List Nat := fun s => s.data.map Char.toNat

/-- Decoder matching `charEnc`. -/
def charDec : List Nat → String := fun l => String.mk (l.map Char.ofNat)

/-- A concrete tokenizer whose every text has exactly 1000 tokens, used to
instantiate the 1000-token chunk-count example. -/
def tokEnc1000 : String → List Nat := fun _ => List.replicate 1000 0

/-- The default processor configuration (`chunk_size=512, chunk_overlap=50`). -/
def dp0 : DocumentProcessor := DocumentProcessor.init 512 50

/-- A concrete injective stand-in for the SHA-256 content digest. -/
def hashH : String → String := fun s => "#" ++ s

/-- `process_file` specialised to text files whose read succeeds: the
per-file processor used to instantiate the refresh theorems. -/
def mdProc (dp : DocumentProcessor) (hashOf : String → String) :
    String → String → Except String (List Chunk) :=
  fun p c => .ok (processMarkdown dp charEnc charDec p "txt" (hashOf c) c)

/-- A knowledge-base state in which `a.txt` was indexed with content
`"v1"`: its ledger entry records `hashH "v1"` and the vector store holds
the single chunk of that version. -/
def kb1 : KBState :=
  { ledger := [("a.txt", { hash := "#v1", chunks := 1 })],
    store := [{ text := "v1", source := "a.txt", file_type := "txt",
                chunk_index := 0, file_hash := "#v1" }],
    disk := [("a.txt", { hash := "#v1", chunks := 1 })] }

/-- The all-zero statistics record (used to state that the per-file loop
only ever adds to the counters). -/
def zeroStats : RefreshStats :=
  { total_files := 0, processed_files := 0, skipped_files := 0,
    deleted_files := 0, total_chunks := 0, errors := [] }

/-- The invariant established for every enumerated file by a completed
incremental refresh: either the ledger records the file's current
content hash, or processing that file raises, or it extracts no chunks.
In each case the next incremental run will not re-embed the file. -/
def ledgerSettled (hashOf : String → String)
    (proc : String → String → Except String (List Chunk))
    (L : List (String × LedgerEntry)) (p c : String) : Prop :=
  (∃ ent, ledgerFind L p = some ent ∧ ent.hash = hashOf c) ∨
  (∃ e, proc p c = .error e) ∨ proc p c = .ok []

/-- A per-file processor that raises on every file. -/
def procBoom : String → String → Except String (List Chunk) :=
  fun _ _ => .error "boom"

/-- The empty knowledge-base state. -/
def kbEmpty : KBState := { ledger := [], store := [], disk := [] }

/-- A knowledge-base state whose ledger records a file `gone.txt` (with
one stored chunk) that no longer exists on disk. -/
def kbGone : KBState :=
  { ledger := [("gone.txt", { hash := "#g", chunks := 1 })],
    store := [{ text := "g", source := "gone.txt", file_type := "txt",
                chunk_index := 0, file_hash := "#g" }],
    disk := [("gone.txt", { hash := "#g", chunks := 1 })] }

/-- File-exists oracle answering `false` for every path. -/
def exFalse : String → Bool := fun _ => false

/-- File-exists oracle answering `true` for every path. -/
def exTrue : String → Bool := fun _ => true

/-- Suffix oracle returning a constant extension. -/
def sfxConst (s : String) : String → String := fun _ => s

/-- PDF extraction oracle that always fails (a corrupt PDF). -/
def pdfFail : String → Except String (List String) := fun _ => .error "corrupt"

/-- File read oracle that always fails (an encoding error). -/
def rdFail : String → Except String String := fun _ => .error "bad encoding"

/-- File read oracle returning fixed content. -/
def rdOk : String → Except String String := fun _ => .ok "hello"

/-! ## Theorems -/

theorem natCeilDiv_zero (s : Nat) : natCeilDiv 0 s = 0 := by
  unfold natCeilDiv
  cases s with
  | zero => rfl
  | succ n => exact Nat.div_eq_of_lt (by omega)

theorem natCeilDiv_step (a s : Nat) (hs : 0 < s) (ha : 0 < a) :
    natCeilDiv a s = natCeilDiv (a - s) s + 1 := by
  unfold natCeilDiv
  by_cases h : a ≤ s
  · have h1 : a - s = 0 := by omega
    rw [h1]
    have h2 : (0 + s - 1) / s = 0 := Nat.div_eq_of_lt (by omega)
    rw [h2]
    exact Nat.div_eq_of_lt_le (by omega) (by omega)
  · have h1 : a + s - 1 = (a - s + s - 1) + s := by omega
    rw [h1, Nat.add_div_right _ hs]

theorem chunkLoop_length_of_ge (size overlap : Nat) (tokens : List Nat)
    (hso : size ≤ overlap) (hN : 1 ≤ tokens.length) :
    ∀ (fuel : Nat) (start : Int), start ≤ 0 →
      (chunkLoop size overlap tokens fuel start).length = fuel := by
  intro fuel
  induction fuel with
  | zero => intro start _; rfl
  | succ n ih =>
    intro start h
    have hlen : (1 : Int) ≤ (tokens.length : Int) := by exact_mod_cast hN
    have hlt : start < (tokens.length : Int) := by omega
    have hstep : (size : Int) - (overlap : Int) ≤ 0 := by
      have : (size : Int) ≤ (overlap : Int) := by exact_mod_cast hso
      omega
    simp only [chunkLoop, if_pos hlt, List.length_cons]
    rw [ih (start + ((size : Int) - (overlap : Int))) (by omega)]

theorem chunkLoop_length_count (size overlap : Nat) (tokens : List Nat)
    (h : overlap < size) :
    ∀ (fuel start : Nat), tokens.length - start ≤ fuel →
      (chunkLoop size overlap tokens fuel (start : Int)).length
        = natCeilDiv (tokens.length - start) (size - overlap) := by
  intro fuel
  induction fuel with
  | zero =>
    intro start hle
    have h0 : tokens.length - start = 0 := by omega
    rw [h0, natCeilDiv_zero]
    rfl
  | succ n ih =>
    intro start hle
    by_cases hs : start < tokens.length
    · have hlt : (start : Int) < (tokens.length : Int) := by exact_mod_cast hs
      have hcast : (start : Int) + ((size : Int) - (overlap : Int))
          = ((start + (size - overlap) : Nat) : Int) := by
        have h1 : (overlap : Int) ≤ (size : Int) := by exact_mod_cast h.le
        push_cast [Nat.cast_sub h.le]
        ring
      simp only [chunkLoop, if_pos hlt, List.length_cons]
      rw [hcast, ih (start + (size - overlap)) (by omega)]
      have hsub : tokens.length - (start + (size - overlap))
          = (tokens.length - start) - (size - overlap) := by omega
      rw [hsub, natCeilDiv_step (tokens.length - start) (size - overlap)
        (by omega) (by omega)]
    · have hge : ¬ ((start : Int) < (tokens.length : Int)) := by
        intro hcon
        exact hs (by exact_mod_cast hcon)
      have h0 : tokens.length - start = 0 := by omega
      simp only [chunkLoop, if_neg hge, List.length_nil]
      rw [h0, natCeilDiv_zero]

theorem chunkText_length (size overlap : Nat) (enc : String → List Nat)
    (dec : List Nat → String) (text : String) (h : overlap < size) :
    (chunkText (DocumentProcessor.init size overlap) enc dec text).length
      = natCeilDiv (enc text).length (size - overlap) := by
  unfold chunkText chunkTextTokens DocumentProcessor.init
  rw [List.length_map]
  have hc := chunkLoop_length_count size overlap (enc text) h
    ((enc text).length + 1) 0 (by omega)
  simpa using hc

/-- C2 (counterexample): the claimed chunk-count formula
`ceil((N − overlap) / (chunk_size − overlap))` is wrong on the code: a
6-token text with `chunk_size = 5, chunk_overlap = 3` is a valid
configuration (`overlap < size`, `N > 0`) on which `_chunk_text`
produces 3 chunks while the formula gives 2. -/
theorem C2_formula_counterexample :
    0 < (charEnc "abcdef").length ∧ 3 < 5 ∧
    (chunkText (DocumentProcessor.init 5 3) charEnc charDec "abcdef").length = 3 ∧
    natCeilDiv ((charEnc "abcdef").length - 3) (5 - 3) = 2 := by
  refine ⟨by decide, by decide, by decide, by decide⟩

/-- C2 (amended): for every text with `N > 0` tokens and every
configuration with `chunk_overlap < chunk_size`, `_chunk_text` produces
exactly `ceil(N / (chunk_size − chunk_overlap))` chunks; the 1000-token,
512/50 example still yields exactly 3 chunks (see the witness). -/
theorem C2_chunk_count (size overlap : Nat) (enc : String → List Nat)
    (dec : List Nat → String) (text : String) (h : overlap < size)
    (_hN : 0 < (enc text).length) :
    (chunkText (DocumentProcessor.init size overlap) enc dec text).length
      = natCeilDiv (enc text).length (size - overlap) :=
  chunkText_length size overlap enc dec text h

theorem C2_chunk_count_witness :
    (chunkText (DocumentProcessor.init 512 50) tokEnc1000 charDec "a").length
      = natCeilDiv (tokEnc1000 "a").length (512 - 50) ∧
    natCeilDiv 1000 (512 - 50) = 3 :=
  ⟨C2_chunk_count 512 50 tokEnc1000 charDec "a" (by decide)
      (by rw [show tokEnc1000 "a" = List.replicate 1000 0 from rfl,
        List.length_replicate]; omega), by decide⟩

/-- C3: the claim fails on the code, which is the bug: the constructor
performs no validation (it returns the stored configuration even when
`chunk_overlap ≥ chunk_size`, raising no configuration error), and on
any non-empty token sequence the `while start < len(tokens)` window loop
then never exits: every amount of fuel is consumed producing one window
per unit, i.e. the window sequence is non-advancing and infinite. -/
theorem C3_no_failfast_loop_forever (size overlap : Nat) (tokens : List Nat)
    (hso : size ≤ overlap) (hN : 1 ≤ tokens.length) :
    DocumentProcessor.init size overlap
      = { chunk_size := size, chunk_overlap := overlap } ∧
    ∀ fuel : Nat, (chunkLoop size overlap tokens fuel 0).length = fuel :=
  ⟨rfl, fun fuel => chunkLoop_length_of_ge size overlap tokens hso hN fuel 0 le_rfl⟩

theorem C3_no_failfast_witness :
    DocumentProcessor.init 2 2 = { chunk_size := 2, chunk_overlap := 2 } ∧
    (chunkLoop 2 2 [0] 5 0).length = 5 :=
  ⟨(C3_no_failfast_loop_forever 2 2 [0] (by decide) (by decide)).1,
   (C3_no_failfast_loop_forever 2 2 [0] (by decide) (by decide)).2 5⟩

/-- C4: for every text that is empty or consists only of whitespace
characters, `_process_markdown` returns the empty chunk sequence (the
`if not text.strip()` guard fires before any fallible operation, so no
error is raised). -/
theorem C4_whitespace_empty_chunks (dp : DocumentProcessor)
    (enc : String → List Nat) (dec : List Nat → String)
    (file_path file_type file_hash text : String)
    (hws : ∀ c ∈ text.data, c.isWhitespace) :
    processMarkdown dp enc dec file_path file_type file_hash text = [] := by
  unfold processMarkdown
  rw [if_pos]
  unfold pyStrip
  rw [List.dropWhile_eq_nil_iff.mpr hws]
  simp

theorem C4_whitespace_witness :
    processMarkdown (DocumentProcessor.init 512 50) charEnc charDec
      "a.txt" "txt" "h0" " \n\t " = [] :=
  C4_whitespace_empty_chunks _ _ _ _ _ _ _ (by decide)

/-- C8: `process_file` raises a not-found error for every missing path;
an unsupported-type error for every existing path whose (lower-cased)
extension is not pdf/md/markdown/txt; wraps any PDF or text extraction
failure in a processing error naming the file; and in every remaining
case returns chunks without raising. -/
theorem C8_processFile_failure_modes (fsExists : String → Bool)
    (pathSuffix : String → String)
    (pdfPages : String → Except String (List String))
    (readFile : String → Except String String)
    (dp : DocumentProcessor) (enc : String → List Nat)
    (dec : List Nat → String) (hashFile : String → String) (p : String) :
    (fsExists p = false →
      processFile fsExists pathSuffix pdfPages readFile dp enc dec hashFile p
        = .error (.fileNotFound ("File not found: " ++ p))) ∧
    (fsExists p = true →
      pyLower (pathSuffix p) ∉ ([".pdf", ".md", ".markdown", ".txt"] : List String) →
      processFile fsExists pathSuffix pdfPages readFile dp enc dec hashFile p
        = .error (.unsupportedType ("Unsupported file type: " ++ pyLower (pathSuffix p)))) ∧
    (fsExists p = true → pyLower (pathSuffix p) = ".pdf" →
      ∀ e, pdfPages p = .error e →
        processFile fsExists pathSuffix pdfPages readFile dp enc dec hashFile p
          = .error (.runtimeError ("Error processing PDF " ++ p ++ ": " ++ e))) ∧
    (fsExists p = true →
      pyLower (pathSuffix p) ∈ ([".md", ".markdown", ".txt"] : List String) →
      ∀ e, readFile p = .error e →
        processFile fsExists pathSuffix pdfPages readFile dp enc dec hashFile p
          = .error (.runtimeError ("Error processing file " ++ p ++ ": " ++ e))) ∧
    (fsExists p = true → pyLower (pathSuffix p) = ".pdf" →
      ∀ pages, pdfPages p = .ok pages →
        processFile fsExists pathSuffix pdfPages readFile dp enc dec hashFile p
          = .ok (pdfChunks dp enc dec p (hashFile p) pages)) ∧
    (fsExists p = true →
      pyLower (pathSuffix p) ∈ ([".md", ".markdown", ".txt"] : List String) →
      ∀ text, readFile p = .ok text →
        processFile fsExists pathSuffix pdfPages readFile dp enc dec hashFile p
          = .ok (processMarkdown dp enc dec p ((pathSuffix p).drop 1)
              (hashFile p) text)) := by
  refine ⟨?_, ?_, ?_, ?_, ?_, ?_⟩
  · intro h
    simp [processFile, h]
  · intro h hext
    have h1 : pyLower (pathSuffix p) ≠ ".pdf" := by
      intro hc; exact hext (by rw [hc]; simp)
    have h2 : pyLower (pathSuffix p) ∉ ([".md", ".markdown", ".txt"] : List String) := by
      intro hc
      apply hext
      simp only [List.mem_cons, List.mem_singleton] at hc ⊢
      tauto
    simp [processFile, h, h1, h2]
  · intro h hext e he
    simp [processFile, h, hext, processPdfFile, he]
  · intro h hext e he
    have h1 : pyLower (pathSuffix p) ≠ ".pdf" := by
      intro hc
      rw [hc] at hext
      simp at hext
    simp [processFile, h, h1, hext, processMarkdownFile, he]
  · intro h hext pages hp
    simp [processFile, h, hext, processPdfFile, hp]
  · intro h hext text ht
    have h1 : pyLower (pathSuffix p) ≠ ".pdf" := by
      intro hc
      rw [hc] at hext
      simp at hext
    simp [processFile, h, h1, hext, processMarkdownFile, ht]

theorem C8_processFile_witness :
    processFile exFalse (sfxConst ".txt") pdfFail rdFail dp0 charEnc charDec
        hashH "a.txt" = .error (.fileNotFound "File not found: a.txt") ∧
    processFile exTrue (sfxConst ".docx") pdfFail rdFail dp0 charEnc charDec
        hashH "b.docx" = .error (.unsupportedType "Unsupported file type: .docx") ∧
    processFile exTrue (sfxConst ".pdf") pdfFail rdFail dp0 charEnc charDec
        hashH "c.pdf" = .error (.runtimeError "Error processing PDF c.pdf: corrupt") ∧
    processFile exTrue (sfxConst ".md") pdfFail rdFail dp0 charEnc charDec
        hashH "d.md" = .error (.runtimeError "Error processing file d.md: bad encoding") ∧
    processFile exTrue (sfxConst ".txt") pdfFail rdOk dp0 charEnc charDec
        hashH "e.txt"
      = .ok (processMarkdown dp0 charEnc charDec "e.txt" "txt" (hashH "e.txt") "hello") :=
  ⟨(C8_processFile_failure_modes exFalse (sfxConst ".txt") pdfFail rdFail dp0
      charEnc charDec hashH "a.txt").1 rfl,
   (C8_processFile_failure_modes exTrue (sfxConst ".docx") pdfFail rdFail dp0
      charEnc charDec hashH "b.docx").2.1 rfl (by decide),
   (C8_processFile_failure_modes exTrue (sfxConst ".pdf") pdfFail rdFail dp0
      charEnc charDec hashH "c.pdf").2.2.1 rfl (by decide) "corrupt" rfl,
   (C8_processFile_failure_modes exTrue (sfxConst ".md") pdfFail rdFail dp0
      charEnc charDec hashH "d.md").2.2.2.1 rfl (by decide) "bad encoding" rfl,
   (C8_processFile_failure_modes exTrue (sfxConst ".txt") pdfFail rdOk dp0
      charEnc charDec hashH "e.txt").2.2.2.2.2 rfl (by decide) "hello" rfl⟩

/-- C9: a refresh call on a directory that does not exist raises
`FileNotFoundError` before mutating anything: the returned state (the
in-memory ledger, its on-disk copy, and the vector store) is exactly the
input state. -/
theorem C9_missing_directory_no_mutation (hashOf : String → String)
    (proc : String → String → Except String (List Chunk))
    (incremental force : Bool) (documents_path : String) (st : KBState) :
    refreshTop hashOf proc incremental force documents_path none st
      = (st, .error ("Documents path not found: " ++ documents_path)) := rfl

theorem refreshStep_full_store_append (hashOf : String → String)
    (proc : String → String → Except String (List Chunk)) (force : Bool)
    (acc : KBState × RefreshStats) (f : String × String) :
    ∃ added, (refreshStep hashOf proc false force acc f).1.store
      = acc.1.store ++ added := by
  unfold refreshStep
  by_cases hsp : shouldProcessFile hashOf acc.1.ledger false force f.1 f.2 = false
  · exact ⟨[], by simp [hsp]⟩
  · rw [if_neg hsp]
    match hp : proc f.1 f.2 with
    | .error e => exact ⟨[], by simp⟩
    | .ok [] => exact ⟨[], by simp⟩
    | .ok (c :: rest) => exact ⟨c :: rest, by simp [addDocuments]⟩

theorem foldl_refreshStep_full_store (hashOf : String → String)
    (proc : String → String → Except String (List Chunk)) (force : Bool) :
    ∀ (fs : List (String × String)) (acc : KBState × RefreshStats),
      ∃ added, (fs.foldl (refreshStep hashOf proc false force) acc).1.store
        = acc.1.store ++ added
  | [], acc => ⟨[], by simp⟩
  | f :: rest, acc => by
    obtain ⟨a1, h1⟩ := refreshStep_full_store_append hashOf proc force acc f
    obtain ⟨a2, h2⟩ := foldl_refreshStep_full_store hashOf proc force rest
      (refreshStep hashOf proc false force acc f)
    exact ⟨a1 ++ a2, by rw [List.foldl_cons, h2, h1, List.append_assoc]⟩

/-- C10: in full mode (`incremental=False`) no prior chunks are deleted:
neither the deletion-reconciliation pass nor `delete_by_hash` runs, so
the refreshed vector store is exactly the old store with the new chunks
appended after it. -/
theorem C10_full_mode_only_appends (hashOf : String → String)
    (proc : String → String → Except String (List Chunk)) (force : Bool)
    (fs : List (String × String)) (st : KBState) :
    ∃ added, (refresh hashOf proc false force fs st).1.store
      = st.store ++ added := by
  obtain ⟨a, ha⟩ := foldl_refreshStep_full_store hashOf proc force fs
    (refreshInit false force fs st)
  refine ⟨a, ?_⟩
  have hinit : (refreshInit false force fs st).1 = st := by
    simp [refreshInit]
  rw [refresh]
  simpa [hinit] using ha

/-- C1: the claim fails on the code, which is the bug: for a file whose
content changed from `"v1"` to `"v2"` after being indexed, `refresh`
deletes by the hash taken from the *new* chunks
(`chunks[0]["metadata"]["file_hash"]`, `knowledge_base.py` lines
125-130), a no-op for the old version, so after the incremental refresh
the chunk carrying the old hash `hashH "v1"` is still in the vector
store even though the file was reprocessed. -/
theorem C1_old_hash_chunks_linger :
    (∃ ch ∈ (refresh hashH (mdProc dp0 hashH) true false
        [("a.txt", "v2")] kb1).1.store, ch.file_hash = hashH "v1") ∧
    (refresh hashH (mdProc dp0 hashH) true false
        [("a.txt", "v2")] kb1).2.processed_files = 1 ∧
    hashH "v1" ≠ hashH "v2" := by decide

/-! ### Ledger lookup lemmas -/

theorem ledgerFind_mem {L : List (String × LedgerEntry)} {p : String}
    {ent : LedgerEntry} (h : ledgerFind L p = some ent) : (p, ent) ∈ L := by
  induction L with
  | nil => simp [ledgerFind] at h
  | cons e rest ih =>
    rw [ledgerFind] at h
    by_cases he : e.1 = p
    · rw [if_pos he] at h
      have hpe : e = (p, ent) := by
        cases e
        simp_all
      rw [hpe]
      exact List.mem_cons_self _ _
    · rw [if_neg he] at h
      exact List.mem_cons_of_mem _ (ih h)

theorem ledgerFind_filter_ne {p q : String} (h : p ≠ q)
    (L : List (String × LedgerEntry)) :
    ledgerFind (L.filter fun e => e.1 ≠ q) p = ledgerFind L p := by
  induction L with
  | nil => rfl
  | cons e rest ih =>
    by_cases he : e.1 = q
    · have hd : (decide (e.1 ≠ q)) = false := by simp [he]
      have hep : e.1 ≠ p := fun hc => h (hc ▸ he)
      rw [List.filter_cons, hd]
      simp only [Bool.false_eq_true, if_false]
      rw [ih, ledgerFind, if_neg hep]
    · have hd : (decide (e.1 ≠ q)) = true := by simp [he]
      rw [List.filter_cons, hd]
      simp only [if_true]
      rw [ledgerFind, ledgerFind]
      by_cases hep : e.1 = p
      · rw [if_pos hep, if_pos hep]
      · rw [if_neg hep, if_neg hep, ih]

theorem ledgerFind_filter_self (p : String) (L : List (String × LedgerEntry)) :
    ledgerFind (L.filter fun e => e.1 ≠ p) p = none := by
  induction L with
  | nil => rfl
  | cons e rest ih =>
    by_cases he : e.1 = p
    · have hd : (decide (e.1 ≠ p)) = false := by simp [he]
      rw [List.filter_cons, hd]
      simpa using ih
    · have hd : (decide (e.1 ≠ p)) = true := by simp [he]
      rw [List.filter_cons, hd]
      simp only [if_true]
      rw [ledgerFind, if_neg he, ih]

theorem ledgerFind_append (L1 L2 : List (String × LedgerEntry)) (p : String) :
    ledgerFind (L1 ++ L2) p
      = match ledgerFind L1 p with
        | some ent => some ent
        | none => ledgerFind L2 p := by
  induction L1 with
  | nil => rfl
  | cons e rest ih =>
    by_cases he : e.1 = p
    · simp only [List.cons_append, ledgerFind, if_pos he]
    · simp only [List.cons_append, ledgerFind, if_neg he]
      exact ih

theorem ledgerFind_erase_ne {p q : String} (h : p ≠ q)
    (L : List (String × LedgerEntry)) :
    ledgerFind (ledgerErase L q) p = ledgerFind L p :=
  ledgerFind_filter_ne h L

theorem ledgerFind_insert_ne {p q : String} (h : p ≠ q)
    (L : List (String × LedgerEntry)) (ent : LedgerEntry) :
    ledgerFind (ledgerInsert L q ent) p = ledgerFind L p := by
  rw [ledgerInsert, ledgerFind_append, ledgerFind_filter_ne h]
  cases hf : ledgerFind L p with
  | some e => rfl
  | none =>
    have hqp : ¬ (q = p) := fun hc => h (Eq.symm hc)
    simp [ledgerFind, hqp]

theorem ledgerFind_insert_self (p : String) (L : List (String × LedgerEntry))
    (ent : LedgerEntry) :
    ledgerFind (ledgerInsert L p ent) p = some ent := by
  rw [ledgerInsert, ledgerFind_append, ledgerFind_filter_self]
  simp [ledgerFind]

/-! ### Deletion reconciliation lemmas -/

theorem handleDeletedFold_find {current : List String} {p : String}
    (hp : p ∈ current) :
    ∀ (entries : List (String × LedgerEntry)) (acc : KBState × List String),
      ledgerFind (entries.foldl (handleDeletedStep current) acc).1.ledger p
        = ledgerFind acc.1.ledger p
  | [], acc => rfl
  | e :: rest, acc => by
    rw [List.foldl_cons, handleDeletedFold_find hp rest]
    unfold handleDeletedStep
    by_cases he : e.1 ∈ current
    · rw [if_pos he]
    · rw [if_neg he]
      exact ledgerFind_erase_ne (fun (hc : p = e.1) => he (hc ▸ hp)) acc.1.ledger

theorem handleDeletedFold_none_mono {current : List String} {q : String} :
    ∀ (entries : List (String × LedgerEntry)) (acc : KBState × List String),
      ledgerFind acc.1.ledger q = none →
      ledgerFind (entries.foldl (handleDeletedStep current) acc).1.ledger q = none
  | [], _, h => h
  | e :: rest, acc, h => by
    rw [List.foldl_cons]
    refine handleDeletedFold_none_mono rest _ ?_
    unfold handleDeletedStep
    by_cases he : e.1 ∈ current
    · rw [if_pos he]; exact h
    · rw [if_neg he]
      by_cases heq : q = e.1
      · subst heq
        exact ledgerFind_filter_self e.1 acc.1.ledger
      · rw [ledgerFind_erase_ne heq]
        exact h

theorem handleDeletedFold_find_none {current : List String} {q : String}
    {ent : LedgerEntry} (hq : q ∉ current) :
    ∀ (entries : List (String × LedgerEntry)) (acc : KBState × List String),
      (q, ent) ∈ entries →
      ledgerFind (entries.foldl (handleDeletedStep current) acc).1.ledger q = none
  | e :: rest, acc, hmem => by
    rw [List.foldl_cons]
    rcases List.mem_cons.mp hmem with heq | hrest
    · subst heq
      refine handleDeletedFold_none_mono rest _ ?_
      unfold handleDeletedStep
      rw [if_neg hq]
      exact ledgerFind_filter_self q acc.1.ledger
    · exact handleDeletedFold_find_none hq rest _ hrest

theorem handleDeletedFold_store_mono {current : List String} :
    ∀ (entries : List (String × LedgerEntry)) (acc : KBState × List String)
      (ch : Chunk),
      ch ∈ (entries.foldl (handleDeletedStep current) acc).1.store →
      ch ∈ acc.1.store
  | [], _, _, h => h
  | e :: rest, acc, ch, h => by
    rw [List.foldl_cons] at h
    have h1 := handleDeletedFold_store_mono rest _ ch h
    unfold handleDeletedStep at h1
    by_cases he : e.1 ∈ current
    · rwa [if_pos he] at h1
    · rw [if_neg he] at h1
      by_cases hh : e.2.hash = ""
      · simpa [hh] using h1
      · simp only [if_neg hh, deleteByHash] at h1
        exact List.mem_of_mem_filter h1

theorem handleDeletedFold_store {current : List String} {q : String}
    {ent : LedgerEntry} (hq : q ∉ current) (hh : ent.hash ≠ "") :
    ∀ (entries : List (String × LedgerEntry)) (acc : KBState × List String),
      (q, ent) ∈ entries →
      ∀ ch ∈ (entries.foldl (handleDeletedStep current) acc).1.store,
        ch.file_hash ≠ ent.hash
  | e :: rest, acc, hmem, ch, hch => by
    rw [List.foldl_cons] at hch
    rcases List.mem_cons.mp hmem with heq | hrest
    · subst heq
      have h1 := handleDeletedFold_store_mono rest _ ch hch
      unfold handleDeletedStep at h1
      rw [if_neg hq, if_neg hh] at h1
      simp only [deleteByHash, List.mem_filter, decide_eq_true_eq] at h1
      exact h1.2
    · exact handleDeletedFold_store hq hh rest _ hrest ch hch

theorem handleDeletedFold_deleted (current : List String) :
    ∀ (entries : List (String × LedgerEntry)) (acc : KBState × List String),
      (entries.foldl (handleDeletedStep current) acc).2
        = acc.2 ++ (entries.filter fun e => e.1 ∉ current).map Prod.fst
  | [], acc => by simp
  | e :: rest, acc => by
    rw [List.foldl_cons, handleDeletedFold_deleted current rest]
    unfold handleDeletedStep
    by_cases he : e.1 ∈ current
    · rw [if_pos he, List.filter_cons]
      simp [he]
    · rw [if_neg he, List.filter_cons]
      simp [he]

/-! ### Per-file loop lemmas -/

theorem refreshStep_stats (hashOf : String → String)
    (proc : String → String → Except String (List Chunk))
    (inc force : Bool) (acc : KBState × RefreshStats) (f : String × String) :
    (refreshStep hashOf proc inc force acc f).1
      = (refreshStep hashOf proc inc force (acc.1, zeroStats) f).1 ∧
    (refreshStep hashOf proc inc force acc f).2.processed_files
      = acc.2.processed_files
        + (refreshStep hashOf proc inc force (acc.1, zeroStats) f).2.processed_files ∧
    (refreshStep hashOf proc inc force acc f).2.skipped_files
      = acc.2.skipped_files
        + (refreshStep hashOf proc inc force (acc.1, zeroStats) f).2.skipped_files ∧
    (refreshStep hashOf proc inc force acc f).2.total_chunks
      = acc.2.total_chunks
        + (refreshStep hashOf proc inc force (acc.1, zeroStats) f).2.total_chunks ∧
    (refreshStep hashOf proc inc force acc f).2.deleted_files
      = acc.2.deleted_files ∧
    (refreshStep hashOf proc inc force acc f).2.total_files
      = acc.2.total_files ∧
    (refreshStep hashOf proc inc force acc f).2.errors
      = acc.2.errors
        ++ (refreshStep hashOf proc inc force (acc.1, zeroStats) f).2.errors := by
  unfold refreshStep
  by_cases hsp : shouldProcessFile hashOf acc.1.ledger inc force f.1 f.2 = false
  · simp [hsp, zeroStats]
  · rw [if_neg hsp]
    simp only []
    rw [if_neg hsp]
    cases hp : proc f.1 f.2 with
    | error e => simp [zeroStats]
    | ok chunks =>
      cases chunks with
      | nil => simp [zeroStats]
      | cons c rest => simp [zeroStats]

theorem foldl_refreshStep_stats (hashOf : String → String)
    (proc : String → String → Except String (List Chunk)) (inc force : Bool) :
    ∀ (fs : List (String × String)) (acc : KBState × RefreshStats),
      (fs.foldl (refreshStep hashOf proc inc force) acc).1
        = (fs.foldl (refreshStep hashOf proc inc force) (acc.1, zeroStats)).1 ∧
      (fs.foldl (refreshStep hashOf proc inc force) acc).2.processed_files
        = acc.2.processed_files
          + (fs.foldl (refreshStep hashOf proc inc force) (acc.1, zeroStats)).2.processed_files ∧
      (fs.foldl (refreshStep hashOf proc inc force) acc).2.skipped_files
        = acc.2.skipped_files
          + (fs.foldl (refreshStep hashOf proc inc force) (acc.1, zeroStats)).2.skipped_files ∧
      (fs.foldl (refreshStep hashOf proc inc force) acc).2.total_chunks
        = acc.2.total_chunks
          + (fs.foldl (refreshStep hashOf proc inc force) (acc.1, zeroStats)).2.total_chunks ∧
      (fs.foldl (refreshStep hashOf proc inc force) acc).2.deleted_files
        = acc.2.deleted_files ∧
      (fs.foldl (refreshStep hashOf proc inc force) acc).2.total_files
        = acc.2.total_files ∧
      (fs.foldl (refreshStep hashOf proc inc force) acc).2.errors
        = acc.2.errors
          ++ (fs.foldl (refreshStep hashOf proc inc force) (acc.1, zeroStats)).2.errors := by
  intro fs
  induction fs with
  | nil =>
    intro acc
    refine ⟨rfl, ?_, ?_, ?_, rfl, rfl, ?_⟩ <;> simp [zeroStats]
  | cons f rest ih =>
    intro acc
    simp only [List.foldl_cons]
    obtain ⟨e1, e2, e3, e4, e5, e6, e7⟩ := refreshStep_stats hashOf proc inc force acc f
    obtain ⟨i1, i2, i3, i4, i5, i6, i7⟩ := ih (refreshStep hashOf proc inc force acc f)
    obtain ⟨j1, j2, j3, j4, j5, j6, j7⟩ :=
      ih (refreshStep hashOf proc inc force (acc.1, zeroStats) f)
    rw [e1] at i1 i2 i3 i4
    refine ⟨i1.trans j1.symm, ?_, ?_, ?_, ?_, ?_, ?_⟩
    · rw [i2, j2, e2]; omega
    · rw [i3, j3, e3]; omega
    · rw [i4, j4, e4]; omega
    · rw [i5, e5]
    · rw [i6, e6]
    · rw [e1] at i7
      rw [i7, j7, e7, List.append_assoc]

theorem refreshStep_find_ne (hashOf : String → String)
    (proc : String → String → Except String (List Chunk)) (inc force : Bool)
    (acc : KBState × RefreshStats) (f : String × String) (p : String)
    (h : f.1 ≠ p) :
    ledgerFind (refreshStep hashOf proc inc force acc f).1.ledger p
      = ledgerFind acc.1.ledger p := by
  unfold refreshStep
  by_cases hsp : shouldProcessFile hashOf acc.1.ledger inc force f.1 f.2 = false
  · simp [hsp]
  · rw [if_neg hsp]
    cases hp : proc f.1 f.2 with
    | error e => rfl
    | ok chunks =>
      cases chunks with
      | nil => rfl
      | cons c rest =>
        exact ledgerFind_insert_ne (fun hc => h hc.symm) acc.1.ledger _

theorem foldl_refreshStep_find_ne (hashOf : String → String)
    (proc : String → String → Except String (List Chunk)) (inc force : Bool)
    (p : String) :
    ∀ (fs : List (String × String)) (acc : KBState × RefreshStats),
      p ∉ fs.map Prod.fst →
      ledgerFind (fs.foldl (refreshStep hashOf proc inc force) acc).1.ledger p
        = ledgerFind acc.1.ledger p
  | [], acc, _ => rfl
  | f :: rest, acc, hp => by
    rw [List.foldl_cons,
      foldl_refreshStep_find_ne hashOf proc inc force p rest _
        (fun hc => hp (List.mem_cons_of_mem _ hc)),
      refreshStep_find_ne hashOf proc inc force acc f p
        (fun hc => hp (hc ▸ List.mem_cons_self _ _))]

theorem foldl_refreshStep_addError (hashOf : String → String)
    (proc : String → String → Except String (List Chunk)) (inc force : Bool)
    (post : List (String × String)) (s : KBState) :
    ∀ (stats : RefreshStats) (m : String),
      (post.foldl (refreshStep hashOf proc inc force)
          (s, { stats with errors := stats.errors ++ [m] })).1
        = (post.foldl (refreshStep hashOf proc inc force) (s, stats)).1 ∧
      (post.foldl (refreshStep hashOf proc inc force)
          (s, { stats with errors := stats.errors ++ [m] })).2.processed_files
        = (post.foldl (refreshStep hashOf proc inc force) (s, stats)).2.processed_files ∧
      (post.foldl (refreshStep hashOf proc inc force)
          (s, { stats with errors := stats.errors ++ [m] })).2.skipped_files
        = (post.foldl (refreshStep hashOf proc inc force) (s, stats)).2.skipped_files ∧
      (post.foldl (refreshStep hashOf proc inc force)
          (s, { stats with errors := stats.errors ++ [m] })).2.total_chunks
        = (post.foldl (refreshStep hashOf proc inc force) (s, stats)).2.total_chunks ∧
      (post.foldl (refreshStep hashOf proc inc force)
          (s, { stats with errors := stats.errors ++ [m] })).2.deleted_files
        = (post.foldl (refreshStep hashOf proc inc force) (s, stats)).2.deleted_files ∧
      (post.foldl (refreshStep hashOf proc inc force)
          (s, { stats with errors := stats.errors ++ [m] })).2.total_files
        = (post.foldl (refreshStep hashOf proc inc force) (s, stats)).2.total_files ∧
      m ∈ (post.foldl (refreshStep hashOf proc inc force)
          (s, { stats with errors := stats.errors ++ [m] })).2.errors := by
  intro stats m
  obtain ⟨tf, pf, sf, df, tc, errs⟩ := stats
  obtain ⟨g1, g2, g3, g4, g5, g6, g7⟩ := foldl_refreshStep_stats hashOf proc inc force
    post (s, ⟨tf, pf, sf, df, tc, errs ++ [m]⟩)
  obtain ⟨k1, k2, k3, k4, k5, k6, k7⟩ := foldl_refreshStep_stats hashOf proc inc force
    post (s, ⟨tf, pf, sf, df, tc, errs⟩)
  dsimp only at g1 g2 g3 g4 g5 g6 g7 k1 k2 k3 k4 k5 k6 k7 ⊢
  refine ⟨g1.trans k1.symm, ?_, ?_, ?_, g5.trans k5.symm, g6.trans k6.symm, ?_⟩
  · rw [g2, k2]
  · rw [g3, k3]
  · rw [g4, k4]
  · rw [g7]
    simp

/-- C7: a per-file exception is caught and isolated.  If processing file
`(p, c)` raises `msg` while it was selected for processing, then the
refresh run over `pre ++ (p, c) :: post` reaches exactly the same final
state as the same run with the failing file absent from the loop, every
counter is unchanged, the error is recorded in `errors[]` with the
filename, and the ledger is still persisted once after the loop (the
on-disk copy equals the in-memory ledger). -/
theorem C7_per_file_error_isolation (hashOf : String → String)
    (proc : String → String → Except String (List Chunk)) (inc force : Bool)
    (pre post : List (String × String)) (p c msg : String) (st : KBState)
    (hproc : proc p c = .error msg)
    (hsel : shouldProcessFile hashOf
        ((pre.foldl (refreshStep hashOf proc inc force)
          (refreshInit inc force (pre ++ (p, c) :: post) st)).1.ledger)
        inc force p c = true) :
    (refresh hashOf proc inc force (pre ++ (p, c) :: post) st).1
      = { ((pre ++ post).foldl (refreshStep hashOf proc inc force)
            (refreshInit inc force (pre ++ (p, c) :: post) st)).1 with
          disk := ((pre ++ post).foldl (refreshStep hashOf proc inc force)
            (refreshInit inc force (pre ++ (p, c) :: post) st)).1.ledger } ∧
    ("Error processing " ++ p ++ ": " ++ msg)
      ∈ (refresh hashOf proc inc force (pre ++ (p, c) :: post) st).2.errors ∧
    (refresh hashOf proc inc force (pre ++ (p, c) :: post) st).2.processed_files
      = ((pre ++ post).foldl (refreshStep hashOf proc inc force)
          (refreshInit inc force (pre ++ (p, c) :: post) st)).2.processed_files ∧
    (refresh hashOf proc inc force (pre ++ (p, c) :: post) st).2.skipped_files
      = ((pre ++ post).foldl (refreshStep hashOf proc inc force)
          (refreshInit inc force (pre ++ (p, c) :: post) st)).2.skipped_files ∧
    (refresh hashOf proc inc force (pre ++ (p, c) :: post) st).2.total_chunks
      = ((pre ++ post).foldl (refreshStep hashOf proc inc force)
          (refreshInit inc force (pre ++ (p, c) :: post) st)).2.total_chunks ∧
    (refresh hashOf proc inc force (pre ++ (p, c) :: post) st).2.deleted_files
      = ((pre ++ post).foldl (refreshStep hashOf proc inc force)
          (refreshInit inc force (pre ++ (p, c) :: post) st)).2.deleted_files ∧
    (refresh hashOf proc inc force (pre ++ (p, c) :: post) st).1.disk
      = (refresh hashOf proc inc force (pre ++ (p, c) :: post) st).1.ledger := by
  have hne : ¬ (shouldProcessFile hashOf
      ((pre.foldl (refreshStep hashOf proc inc force)
        (refreshInit inc force (pre ++ (p, c) :: post) st)).1.ledger)
      inc force p c = false) := by
    rw [hsel]; simp
  set a := refreshInit inc force (pre ++ (p, c) :: post) st with ha
  set A := pre.foldl (refreshStep hashOf proc inc force) a with hA
  have hstepA : refreshStep hashOf proc inc force A (p, c)
      = (A.1, { A.2 with errors := A.2.errors
          ++ ["Error processing " ++ p ++ ": " ++ msg] }) := by
    unfold refreshStep
    rw [if_neg hne, hproc]
  have hfold : (pre ++ (p, c) :: post).foldl (refreshStep hashOf proc inc force) a
      = post.foldl (refreshStep hashOf proc inc force)
          (A.1, { A.2 with errors := A.2.errors
            ++ ["Error processing " ++ p ++ ": " ++ msg] }) := by
    rw [List.foldl_append, List.foldl_cons, hstepA]
  have hfold2 : (pre ++ post).foldl (refreshStep hashOf proc inc force) a
      = post.foldl (refreshStep hashOf proc inc force) A := by
    rw [List.foldl_append]
  obtain ⟨g1, g2, g3, g4, g5, g6, g7⟩ := foldl_refreshStep_addError hashOf proc inc force
    post A.1 A.2 ("Error processing " ++ p ++ ": " ++ msg)
  have hAeta : ((A.1, A.2) : KBState × RefreshStats) = A := rfl
  rw [hAeta] at g1 g2 g3 g4 g5 g6
  refine ⟨?_, ?_, ?_, ?_, ?_, ?_, rfl⟩
  · show ({ ((pre ++ (p, c) :: post).foldl (refreshStep hashOf proc inc force) a).1 with
        disk := ((pre ++ (p, c) :: post).foldl (refreshStep hashOf proc inc force) a).1.ledger } = _)
    rw [hfold, hfold2, g1]
  · show _ ∈ ((pre ++ (p, c) :: post).foldl (refreshStep hashOf proc inc force) a).2.errors
    rw [hfold]
    exact g7
  · show ((pre ++ (p, c) :: post).foldl (refreshStep hashOf proc inc force) a).2.processed_files = _
    rw [hfold, hfold2, g2]
  · show ((pre ++ (p, c) :: post).foldl (refreshStep hashOf proc inc force) a).2.skipped_files = _
    rw [hfold, hfold2, g3]
  · show ((pre ++ (p, c) :: post).foldl (refreshStep hashOf proc inc force) a).2.total_chunks = _
    rw [hfold, hfold2, g4]
  · show ((pre ++ (p, c) :: post).foldl (refreshStep hashOf proc inc force) a).2.deleted_files = _
    rw [hfold, hfold2, g5]

theorem C7_per_file_error_isolation_witness :
    (refresh hashH procBoom true false ([] ++ ("x.txt", "c") :: []) kbEmpty).1
      = { (([] ++ []).foldl (refreshStep hashH procBoom true false)
            (refreshInit true false ([] ++ ("x.txt", "c") :: []) kbEmpty)).1 with
          disk := (([] ++ []).foldl (refreshStep hashH procBoom true false)
            (refreshInit true false ([] ++ ("x.txt", "c") :: []) kbEmpty)).1.ledger } ∧
    ("Error processing " ++ "x.txt" ++ ": " ++ "boom")
      ∈ (refresh hashH procBoom true false ([] ++ ("x.txt", "c") :: []) kbEmpty).2.errors ∧
    (refresh hashH procBoom true false ([] ++ ("x.txt", "c") :: []) kbEmpty).2.processed_files
      = (([] ++ []).foldl (refreshStep hashH procBoom true false)
          (refreshInit true false ([] ++ ("x.txt", "c") :: []) kbEmpty)).2.processed_files ∧
    (refresh hashH procBoom true false ([] ++ ("x.txt", "c") :: []) kbEmpty).2.skipped_files
      = (([] ++ []).foldl (refreshStep hashH procBoom true false)
          (refreshInit true false ([] ++ ("x.txt", "c") :: []) kbEmpty)).2.skipped_files ∧
    (refresh hashH procBoom true false ([] ++ ("x.txt", "c") :: []) kbEmpty).2.total_chunks
      = (([] ++ []).foldl (refreshStep hashH procBoom true false)
          (refreshInit true false ([] ++ ("x.txt", "c") :: []) kbEmpty)).2.total_chunks ∧
    (refresh hashH procBoom true false ([] ++ ("x.txt", "c") :: []) kbEmpty).2.deleted_files
      = (([] ++ []).foldl (refreshStep hashH procBoom true false)
          (refreshInit true false ([] ++ ("x.txt", "c") :: []) kbEmpty)).2.deleted_files ∧
    (refresh hashH procBoom true false ([] ++ ("x.txt", "c") :: []) kbEmpty).1.disk
      = (refresh hashH procBoom true false ([] ++ ("x.txt", "c") :: []) kbEmpty).1.ledger :=
  C7_per_file_error_isolation hashH procBoom true false [] [] "x.txt" "c" "boom"
    kbEmpty rfl (by decide)

/-! ### Second-run idempotence -/

theorem shouldProcessFile_eq_false {hashOf : String → String}
    {L : List (String × LedgerEntry)} {p c : String}
    (h : shouldProcessFile hashOf L true false p c = false) :
    ∃ ent, ledgerFind L p = some ent ∧ ent.hash = hashOf c := by
  unfold shouldProcessFile at h
  cases hf : ledgerFind L p with
  | none => rw [hf] at h; simp at h
  | some ent =>
    rw [hf] at h
    simp at h
    exact ⟨ent, rfl, h.symm⟩

theorem shouldProcessFile_of_settled {hashOf : String → String}
    {L : List (String × LedgerEntry)} {p c : String} {ent : LedgerEntry}
    (hf : ledgerFind L p = some ent) (hh : ent.hash = hashOf c) :
    shouldProcessFile hashOf L true false p c = false := by
  unfold shouldProcessFile
  rw [hf]
  simp [hh]

theorem ledgerSettled_congr {hashOf : String → String}
    {proc : String → String → Except String (List Chunk)}
    {L L' : List (String × LedgerEntry)} {p c : String}
    (hfind : ledgerFind L p = ledgerFind L' p) :
    ledgerSettled hashOf proc L p c ↔ ledgerSettled hashOf proc L' p c := by
  unfold ledgerSettled
  rw [hfind]

theorem refreshStep_settles (hashOf : String → String)
    (proc : String → String → Except String (List Chunk))
    (hproc : ∀ p c ch, proc p c = .ok ch → ∀ x ∈ ch, x.file_hash = hashOf c)
    (acc : KBState × RefreshStats) (f : String × String) :
    ledgerSettled hashOf proc
      (refreshStep hashOf proc true false acc f).1.ledger f.1 f.2 := by
  unfold ledgerSettled refreshStep
  by_cases hsp : shouldProcessFile hashOf acc.1.ledger true false f.1 f.2 = false
  · rw [if_pos hsp]
    obtain ⟨ent, hf, hh⟩ := shouldProcessFile_eq_false hsp
    exact Or.inl ⟨ent, hf, hh⟩
  · rw [if_neg hsp]
    cases hp : proc f.1 f.2 with
    | error e => exact Or.inr (Or.inl ⟨e, rfl⟩)
    | ok chunks =>
      cases chunks with
      | nil => exact Or.inr (Or.inr rfl)
      | cons c rest =>
        refine Or.inl ⟨{ hash := c.file_hash, chunks := (c :: rest).length }, ?_, ?_⟩
        · exact ledgerFind_insert_self f.1 acc.1.ledger _
        · exact hproc f.1 f.2 (c :: rest) hp c (List.mem_cons_self _ _)

theorem refreshStep_settled_skip (hashOf : String → String)
    (proc : String → String → Except String (List Chunk))
    (acc : KBState × RefreshStats) (f : String × String)
    (hs : ledgerSettled hashOf proc acc.1.ledger f.1 f.2) :
    (refreshStep hashOf proc true false acc f).1 = acc.1 ∧
    (refreshStep hashOf proc true false acc f).2.processed_files
      = acc.2.processed_files := by
  unfold refreshStep
  by_cases hsp : shouldProcessFile hashOf acc.1.ledger true false f.1 f.2 = false
  · rw [if_pos hsp]
    exact ⟨rfl, rfl⟩
  · rw [if_neg hsp]
    rcases hs with ⟨ent, hf, hh⟩ | ⟨e, he⟩ | hemp
    · exact absurd (shouldProcessFile_of_settled hf hh) hsp
    · rw [he]
      exact ⟨rfl, rfl⟩
    · rw [hemp]
      exact ⟨rfl, rfl⟩

theorem foldl_refreshStep_settled (hashOf : String → String)
    (proc : String → String → Except String (List Chunk)) :
    ∀ (fs : List (String × String)) (acc : KBState × RefreshStats),
      (∀ f ∈ fs, ledgerSettled hashOf proc acc.1.ledger f.1 f.2) →
      (fs.foldl (refreshStep hashOf proc true false) acc).1 = acc.1 ∧
      (fs.foldl (refreshStep hashOf proc true false) acc).2.processed_files
        = acc.2.processed_files
  | [], acc, _ => ⟨rfl, rfl⟩
  | f :: rest, acc, h => by
    have hf := h f (List.mem_cons_self _ _)
    obtain ⟨hst, hpf⟩ := refreshStep_settled_skip hashOf proc acc f hf
    have hrest : ∀ g ∈ rest, ledgerSettled hashOf proc
        (refreshStep hashOf proc true false acc f).1.ledger g.1 g.2 := by
      intro g hg
      rw [hst]
      exact h g (List.mem_cons_of_mem _ hg)
    obtain ⟨ih1, ih2⟩ := foldl_refreshStep_settled hashOf proc rest
      (refreshStep hashOf proc true false acc f) hrest
    rw [List.foldl_cons, ih1, ih2, hst, hpf]
    exact ⟨rfl, rfl⟩

theorem foldl_refreshStep_establishes (hashOf : String → String)
    (proc : String → String → Except String (List Chunk))
    (hproc : ∀ p c ch, proc p c = .ok ch → ∀ x ∈ ch, x.file_hash = hashOf c) :
    ∀ (fs : List (String × String)) (acc : KBState × RefreshStats),
      (fs.map Prod.fst).Nodup →
      ∀ f ∈ fs, ledgerSettled hashOf proc
        (fs.foldl (refreshStep hashOf proc true false) acc).1.ledger f.1 f.2
  | g :: rest, acc, hnodup, f, hf => by
    rw [List.map_cons] at hnodup
    have hnd := List.nodup_cons.mp hnodup
    rw [List.foldl_cons]
    rcases List.mem_cons.mp hf with heq | hrest
    · subst heq
      have hstep := refreshStep_settles hashOf proc hproc acc f
      have hfind := foldl_refreshStep_find_ne hashOf proc true false f.1 rest
        (refreshStep hashOf proc true false acc f) hnd.1
      exact (ledgerSettled_congr hfind).mpr hstep
    · exact foldl_refreshStep_establishes hashOf proc hproc rest
        (refreshStep hashOf proc true false acc g) hnd.2 f hrest

/-- C5: running an incremental refresh twice in a row with no filesystem
change in between reprocesses nothing: the second run reports
`processed_files = 0`.  After the first run the ledger records the
current hash of every file that produced chunks, files that raised or
extracted nothing behave identically again, and the hash comparison in
`_should_process_file` skips every recorded file. -/
theorem C5_second_run_processes_nothing (hashOf : String → String)
    (proc : String → String → Except String (List Chunk))
    (fs : List (String × String)) (st : KBState)
    (hproc : ∀ p c ch, proc p c = Except.ok ch → ∀ x ∈ ch, x.file_hash = hashOf c)
    (hnodup : (fs.map Prod.fst).Nodup) :
    (refresh hashOf proc true false fs
      (refresh hashOf proc true false fs st).1).2.processed_files = 0 := by
  have hpost : ∀ f ∈ fs, ledgerSettled hashOf proc
      (refresh hashOf proc true false fs st).1.ledger f.1 f.2 := by
    intro f hf
    exact foldl_refreshStep_establishes hashOf proc hproc fs
      (refreshInit true false fs st) hnodup f hf
  have hsettled2 : ∀ f ∈ fs, ledgerSettled hashOf proc
      (refreshInit true false fs
        (refresh hashOf proc true false fs st).1).1.ledger f.1 f.2 := by
    intro f hf
    have hcur : f.1 ∈ fs.map Prod.fst := List.mem_map_of_mem _ hf
    have hfind := handleDeletedFold_find hcur
      ((refresh hashOf proc true false fs st).1).ledger
      ((refresh hashOf proc true false fs st).1, [])
    exact (ledgerSettled_congr hfind).mpr (hpost f hf)
  obtain ⟨_, hpf⟩ := foldl_refreshStep_settled hashOf proc fs
    (refreshInit true false fs
      (refresh hashOf proc true false fs st).1) hsettled2
  exact hpf

theorem processMarkdown_hash (dp : DocumentProcessor) (enc : String → List Nat)
    (dec : List Nat → String) (fp ft fh text : String) :
    ∀ x ∈ processMarkdown dp enc dec fp ft fh text, x.file_hash = fh := by
  intro x hx
  unfold processMarkdown at hx
  by_cases hg : pyStrip text.data = []
  · rw [if_pos hg] at hx
    simp at hx
  · rw [if_neg hg] at hx
    simp only [List.mem_map] at hx
    obtain ⟨it, _, rfl⟩ := hx
    rfl

theorem mdProc_hash (dp : DocumentProcessor) (hashOf : String → String) :
    ∀ p c ch, mdProc dp hashOf p c = Except.ok ch →
      ∀ x ∈ ch, x.file_hash = hashOf c := by
  intro p c ch h x hx
  unfold mdProc at h
  injection h with h
  rw [← h] at hx
  exact processMarkdown_hash dp charEnc charDec p "txt" (hashOf c) c x hx

theorem C5_second_run_witness :
    (refresh hashH (mdProc dp0 hashH) true false [("a.txt", "hello")]
      (refresh hashH (mdProc dp0 hashH) true false [("a.txt", "hello")]
        kbEmpty).1).2.processed_files = 0 :=
  C5_second_run_processes_nothing hashH (mdProc dp0 hashH) [("a.txt", "hello")]
    kbEmpty (mdProc_hash dp0 hashH) (by decide)

/-- C6: deletion reconciliation.  In an incremental, non-forced refresh,
every ledger path absent from the currently eligible paths is treated as
deleted: its chunks are removed from the vector store by the `file_hash`
filter (given the recorded hash is non-empty, which the `if file_hash:`
guard requires), its ledger entry is removed (and never re-added, since
the path is not among the processed files), and `deleted_files` counts
exactly the reconciled paths. -/
theorem C6_deletion_reconciliation (hashOf : String → String)
    (proc : String → String → Except String (List Chunk))
    (fs : List (String × String)) (st : KBState) (p : String)
    (ent : LedgerEntry)
    (hfind : ledgerFind st.ledger p = some ent)
    (hnotin : p ∉ fs.map Prod.fst)
    (hhash : ent.hash ≠ "") :
    ledgerFind (refresh hashOf proc true false fs st).1.ledger p = none ∧
    p ∈ (handleDeletedFiles (fs.map Prod.fst) st).2 ∧
    (∀ ch ∈ (handleDeletedFiles (fs.map Prod.fst) st).1.store,
      ch.file_hash ≠ ent.hash) ∧
    (refresh hashOf proc true false fs st).2.deleted_files
      = (handleDeletedFiles (fs.map Prod.fst) st).2.length := by
  have hmem : (p, ent) ∈ st.ledger := ledgerFind_mem hfind
  have hnone := handleDeletedFold_find_none hnotin st.ledger (st, []) hmem
  have hinit : refreshInit true false fs st
      = ((handleDeletedFiles (fs.map Prod.fst) st).1,
         { total_files := fs.length, processed_files := 0, skipped_files := 0,
           deleted_files := (handleDeletedFiles (fs.map Prod.fst) st).2.length,
           total_chunks := 0, errors := [] }) := rfl
  refine ⟨?_, ?_, ?_, ?_⟩
  · show ledgerFind (fs.foldl (refreshStep hashOf proc true false)
      (refreshInit true false fs st)).1.ledger p = none
    rw [foldl_refreshStep_find_ne hashOf proc true false p fs _ hnotin, hinit]
    exact hnone
  · show p ∈ (st.ledger.foldl (handleDeletedStep (fs.map Prod.fst)) (st, [])).2
    rw [handleDeletedFold_deleted (fs.map Prod.fst) st.ledger (st, [])]
    simp only [List.nil_append]
    exact List.mem_map.mpr ⟨(p, ent),
      List.mem_filter.mpr ⟨hmem, by simpa using hnotin⟩, rfl⟩
  · intro ch hch
    exact handleDeletedFold_store hnotin hhash st.ledger (st, []) hmem ch hch
  · show (fs.foldl (refreshStep hashOf proc true false)
      (refreshInit true false fs st)).2.deleted_files = _
    have hdel := (foldl_refreshStep_stats hashOf proc true false fs
      (refreshInit true false fs st)).2.2.2.2.1
    rw [hdel, hinit]

theorem C6_deletion_reconciliation_witness :
    ledgerFind (refresh hashH procBoom true false [] kbGone).1.ledger
      "gone.txt" = none ∧
    "gone.txt" ∈ (handleDeletedFiles (([] : List (String × String)).map Prod.fst)
      kbGone).2 ∧
    (∀ ch ∈ (handleDeletedFiles (([] : List (String × String)).map Prod.fst)
        kbGone).1.store, ch.file_hash ≠ ("#g" : String)) ∧
    (refresh hashH procBoom true false [] kbGone).2.deleted_files
      = (handleDeletedFiles (([] : List (String × String)).map Prod.fst)
          kbGone).2.length :=
  C6_deletion_reconciliation hashH procBoom [] kbGone "gone.txt"
    { hash := "#g", chunks := 1 } rfl (by decide) (by decide)

end Note2Agent
